import Mathlib

/-!
Verification development for the optika multilayer thin-film transfer-matrix
engine (`optika.materials._layers`, `optika.materials.profiles`).

Modelling conventions:

* Floating-point scalars are modelled by an arbitrary `LinearOrderedField R`
  (instantiated with `ℚ` in concrete evaluations).
* Complex refractive indices and transfer-matrix entries are modelled by the
  computable complex numbers `Cx R` built here (pairs of elements of `R` with
  the usual complex arithmetic).
* External transcendental functions from numpy/scipy (`exp`, `sin`, `erf`,
  `sqrt`, `pi`, complex `exp`) are not part of the repository; they are
  modelled as components of a `RealFns` bundle, and the analytic facts the
  proofs need about them (boundedness of `sin`/`erf`, positivity of `exp`,
  ...) appear as explicit hypotheses of the theorems.
* numpy float division by zero produces non-finite values (`inf`/`nan`); where
  a claim is about division by zero we model division with `cdiv`, which
  returns `none` exactly when the divisor is zero.  Divisions inside the
  matrix pipeline use the total field division, and the well-posedness
  hypotheses of the theorems exclude zero denominators there.
-/

namespace Optika

/-- Computable complex numbers over an arbitrary field `R`: the value domain
of refractive indices and transfer-matrix entries (numpy `complex128`). -/
structure Cx (R : Type) where
  re : R
  im : R
deriving DecidableEq

namespace Cx

variable {R : Type} [LinearOrderedField R]

instance : Zero (Cx R) := ⟨⟨0, 0⟩⟩

instance : One (Cx R) := ⟨⟨1, 0⟩⟩

instance : Add (Cx R) := ⟨fun a b => ⟨a.re + b.re, a.im + b.im⟩⟩

instance : Neg (Cx R) := ⟨fun a => ⟨-a.re, -a.im⟩⟩

instance : Mul (Cx R) := ⟨fun a b => ⟨a.re * b.re - a.im * b.im, a.re * b.im + a.im * b.re⟩⟩

instance : Inv (Cx R) :=
  ⟨fun a => ⟨a.re / (a.re * a.re + a.im * a.im), -a.im / (a.re * a.re + a.im * a.im)⟩⟩

/-- The real number `r` viewed as a complex number. -/
def ofReal (r : R) : Cx R := ⟨r, 0⟩

/-- The imaginary unit. -/
def iu : Cx R := ⟨0, 1⟩

instance instField : Field (Cx R) :=
  Field.ofMinimalAxioms (Cx R)
    (fun ⟨a, b⟩ ⟨c, d⟩ ⟨e, f⟩ => by
      show Cx.mk (a + c + e) (b + d + f) = Cx.mk (a + (c + e)) (b + (d + f))
      simp only [Cx.mk.injEq]; constructor <;> ring)
    (fun ⟨a, b⟩ => by
      show Cx.mk (0 + a) (0 + b) = Cx.mk a b
      simp only [Cx.mk.injEq]; constructor <;> ring)
    (fun ⟨a, b⟩ => by
      show Cx.mk (-a + a) (-b + b) = Cx.mk 0 0
      simp only [Cx.mk.injEq]; constructor <;> ring)
    (fun ⟨a, b⟩ ⟨c, d⟩ ⟨e, f⟩ => by
      show Cx.mk ((a * c - b * d) * e - (a * d + b * c) * f)
            ((a * c - b * d) * f + (a * d + b * c) * e)
          = Cx.mk (a * (c * e - d * f) - b * (c * f + d * e))
            (a * (c * f + d * e) + b * (c * e - d * f))
      simp only [Cx.mk.injEq]; constructor <;> ring)
    (fun ⟨a, b⟩ ⟨c, d⟩ => by
      show Cx.mk (a * c - b * d) (a * d + b * c) = Cx.mk (c * a - d * b) (c * b + d * a)
      simp only [Cx.mk.injEq]; constructor <;> ring)
    (fun ⟨a, b⟩ => by
      show Cx.mk (1 * a - 0 * b) (1 * b + 0 * a) = Cx.mk a b
      simp only [Cx.mk.injEq]; constructor <;> ring)
    (fun ⟨x, y⟩ ha => by
      have hs : x * x + y * y ≠ 0 := by
        intro h
        apply ha
        have hx : x = 0 := by nlinarith [sq_nonneg x, sq_nonneg y]
        have hy : y = 0 := by nlinarith [sq_nonneg x, sq_nonneg y]
        show Cx.mk x y = Cx.mk 0 0
        simp [hx, hy]
      show Cx.mk (x * (x / (x * x + y * y)) - y * (-y / (x * x + y * y)))
            (x * (-y / (x * x + y * y)) + y * (x / (x * x + y * y)))
          = Cx.mk 1 0
      simp only [Cx.mk.injEq]
      constructor
      · field_simp
      · field_simp
        ring)
    (by
      show Cx.mk ((0 : R) / (0 * 0 + 0 * 0)) (-(0 : R) / (0 * 0 + 0 * 0)) = Cx.mk 0 0
      simp)
    (fun ⟨a, b⟩ ⟨c, d⟩ ⟨e, f⟩ => by
      show Cx.mk (a * (c + e) - b * (d + f)) (a * (d + f) + b * (c + e))
          = Cx.mk (a * c - b * d + (a * e - b * f)) (a * d + b * c + (a * f + b * e))
      simp only [Cx.mk.injEq]; constructor <;> ring)
    ⟨0, 1, by
      intro h
      have : (0 : R) = 1 := congrArg Cx.re h
      exact zero_ne_one this⟩

end Cx

/-- Real 3-vectors: propagation directions and surface normals
(`na.Cartesian3dVectorArray`). -/
structure V3 (R : Type) where
  x : R
  y : R
  z : R
deriving DecidableEq

namespace V3

variable {R : Type} [LinearOrderedField R]

/-- Componentwise addition of 3-vectors. -/
def add (a b : V3 R) : V3 R := ⟨a.x + b.x, a.y + b.y, a.z + b.z⟩

/-- Componentwise subtraction of 3-vectors. -/
def sub (a b : V3 R) : V3 R := ⟨a.x - b.x, a.y - b.y, a.z - b.z⟩

/-- Scalar multiple of a 3-vector. -/
def smul (r : R) (a : V3 R) : V3 R := ⟨r * a.x, r * a.y, r * a.z⟩

/-- Euclidean dot product of 3-vectors. -/
def dot (a b : V3 R) : R := a.x * b.x + a.y * b.y + a.z * b.z

end V3

variable {R : Type}

/-- numpy `np.sign`: `-1`, `0` or `1` according to the sign of the input. -/
def sgn [LinearOrderedField R] (x : R) : R :=
  if x < 0 then -1 else if x = 0 then 0 else 1

/-- Checked division, modelling numpy float division: when the divisor is
zero, numpy produces a non-finite value (`inf` or `nan`), modelled here as
`none`. -/
def cdiv [LinearOrderedField R] (a b : R) : Option R :=
  if b = 0 then none else some (a / b)

/-- The external real/complex math functions used by the repository
(numpy/scipy `exp`, `sin`, `erf`, square roots, `pi`, complex `exp`).  These
are library collaborators, not repository code; theorems state the analytic
facts they need about them as hypotheses. -/
structure RealFns (R : Type) where
  rexp : R → R
  rsin : R → R
  rerf : R → R
  rpi : R
  sqrt2 : R
  sqrt3 : R
  /-- Square-root model used by the Snell-law direction update for the normal
  component (see `snells_law`). -/
  sq : R → R
  /-- Complex exponential used by the propagation (phase) matrix. -/
  cexp : Cx R → Cx R

section Profiles

variable [LinearOrderedField R]

/-- `optika.materials.profiles.ErfInterfaceProfile`: dataclass holding the
characteristic width; the dataclass performs no validation of `width`. -/
structure ErfInterfaceProfile (R : Type) where
  width : R
deriving DecidableEq

/-- `optika.materials.profiles.ExponentialInterfaceProfile`. -/
structure ExponentialInterfaceProfile (R : Type) where
  width : R
deriving DecidableEq

/-- `optika.materials.profiles.LinearInterfaceProfile`. -/
structure LinearInterfaceProfile (R : Type) where
  width : R
deriving DecidableEq

/-- `optika.materials.profiles.SinusoidalInterfaceProfile`. -/
structure SinusoidalInterfaceProfile (R : Type) where
  width : R
deriving DecidableEq

/-- `ErfInterfaceProfile.__call__`:
`x = z / (sqrt(2) * width); (1 + erf(x)) / 2`.
The division by `sqrt(2) * width` is checked (`none` models the non-finite
value numpy produces when `width = 0`). -/
def ErfInterfaceProfile.call (F : RealFns R) (p : ErfInterfaceProfile R) (z : R) : Option R :=
  (cdiv z (F.sqrt2 * p.width)).map fun x => (1 + F.rerf x) / 2

/-- `ErfInterfaceProfile.reflectivity`:
`s = 4 * pi * direction.z / wavelength; exp(-(s * width)^2 / 2)`. -/
def ErfInterfaceProfile.reflectivity (F : RealFns R) (p : ErfInterfaceProfile R)
    (wavelength : R) (direction : V3 R) : Option R :=
  (cdiv (4 * F.rpi * direction.z) wavelength).map fun s =>
    F.rexp (-(s * p.width) ^ 2 / 2)

/-- `ExponentialInterfaceProfile.__call__`:
`sgn_z = sign(z); (1 + sgn_z - sgn_z * exp(-sgn_z * sqrt(2) * z / width)) / 2`. -/
def ExponentialInterfaceProfile.call (F : RealFns R) (p : ExponentialInterfaceProfile R)
    (z : R) : Option R :=
  (cdiv (sgn z * F.sqrt2 * z) p.width).map fun q =>
    (1 + sgn z - sgn z * F.rexp (-q)) / 2

/-- `ExponentialInterfaceProfile.reflectivity`:
`s = 4 * pi * direction.z / wavelength; 1 / (1 + (s * width)^2 / 2)`. -/
def ExponentialInterfaceProfile.reflectivity (F : RealFns R) (p : ExponentialInterfaceProfile R)
    (wavelength : R) (direction : V3 R) : Option R :=
  (cdiv (4 * F.rpi * direction.z) wavelength).bind fun s =>
    cdiv 1 (1 + (s * p.width) ^ 2 / 2)

/-- `LinearInterfaceProfile.__call__`:
`result = 1/2 + z / (2 * sqrt(3) * width); min(1, max(result, 0))`. -/
def LinearInterfaceProfile.call (F : RealFns R) (p : LinearInterfaceProfile R) (z : R) :
    Option R :=
  (cdiv z (2 * F.sqrt3 * p.width)).map fun q => min 1 (max (1 / 2 + q) 0)

/-- `LinearInterfaceProfile.reflectivity`:
`s = 4 * pi * direction.z / wavelength; x = sqrt(3) * width * s; sin(x) / x`.
There is no guard for `x = 0` in the source: at `width = 0` this evaluates
`sin(0) / 0`, i.e. `0 / 0` (`nan` in numpy, `none` here). -/
def LinearInterfaceProfile.reflectivity (F : RealFns R) (p : LinearInterfaceProfile R)
    (wavelength : R) (direction : V3 R) : Option R :=
  (cdiv (4 * F.rpi * direction.z) wavelength).bind fun s =>
    cdiv (F.rsin (F.sqrt3 * p.width * s)) (F.sqrt3 * p.width * s)

/-- `SinusoidalInterfaceProfile.__call__`:
`a = pi / (pi^2 - 8); z = clip(z, -a * width, a * width);
result = 1/2 + sin(pi * z / (2 * a * width)) / 2`.
At `width = 0` the clipped `z` is `0` and the argument of `sin` is `0 / 0`. -/
def SinusoidalInterfaceProfile.call (F : RealFns R) (p : SinusoidalInterfaceProfile R)
    (z : R) : Option R :=
  let a := F.rpi / (F.rpi ^ 2 - 8)
  let zc := min (a * p.width) (max z (-(a * p.width)))
  (cdiv (F.rpi * zc) (2 * a * p.width)).map fun q => 1 / 2 + F.rsin q / 2

/-- `SinusoidalInterfaceProfile.reflectivity`:
`a = pi / (pi^2 - 8); x = a * width * s; x1 = x - pi/2; x2 = x + pi/2;
pi * (sin(x1)/x1 + sin(x2)/x2) / 4`. -/
def SinusoidalInterfaceProfile.reflectivity (F : RealFns R) (p : SinusoidalInterfaceProfile R)
    (wavelength : R) (direction : V3 R) : Option R :=
  (cdiv (4 * F.rpi * direction.z) wavelength).bind fun s =>
    let a := F.rpi / (F.rpi ^ 2 - 8)
    let x := a * p.width * s
    (cdiv (F.rsin (x - F.rpi / 2)) (x - F.rpi / 2)).bind fun t1 =>
      (cdiv (F.rsin (x + F.rpi / 2)) (x + F.rpi / 2)).map fun t2 =>
        F.rpi * (t1 + t2) / 4

/-- The polymorphic interface-profile value
(`optika.materials.profiles.AbstractInterfaceProfile`), a sum over the four
concrete shapes. -/
inductive InterfaceProfile (R : Type) where
  | erf (p : ErfInterfaceProfile R)
  | expo (p : ExponentialInterfaceProfile R)
  | linear (p : LinearInterfaceProfile R)
  | sinusoidal (p : SinusoidalInterfaceProfile R)
deriving DecidableEq

/-- Dynamic dispatch of `reflectivity` over the four profile shapes. -/
def InterfaceProfile.reflectivity (F : RealFns R) (p : InterfaceProfile R)
    (wavelength : R) (direction : V3 R) : Option R :=
  match p with
  | .erf p => p.reflectivity F wavelength direction
  | .expo p => p.reflectivity F wavelength direction
  | .linear p => p.reflectivity F wavelength direction
  | .sinusoidal p => p.reflectivity F wavelength direction

/-- The `width` of an interface profile, whichever shape it is. -/
def InterfaceProfile.width (p : InterfaceProfile R) : R :=
  match p with
  | .erf p => p.width
  | .expo p => p.width
  | .linear p => p.width
  | .sinusoidal p => p.width

end Profiles

section Pipeline

variable [LinearOrderedField R]

/-- Modelled from the spec: `optika.materials.snells_law` is not under `src/`
(only its caller `Layer.transfer` is).  Per spec §4.2, the tangential
component of the direction is preserved in the ratio of the refractive
indices, and the normal component is solved from conservation of the
transverse wavevector.  The square root producing the magnitude of the new
normal component is the unspecified model `F.sq`; the sign of the normal
component (sense of travel across the surface) is preserved.  The
`wavelength` argument is accepted, as at the call site, but does not enter
the direction update. -/
def snells_law (F : RealFns R) (wavelength : R) (direction : V3 R)
    (index_refraction index_refraction_new : R) (normal : V3 R) : V3 R :=
  let _ := wavelength
  let r := index_refraction / index_refraction_new
  let c := V3.dot direction normal
  let t := V3.sub direction (V3.smul c normal)
  let t2 := V3.smul r t
  let cz := F.sq (1 - V3.dot t2 t2)
  V3.add t2 (V3.smul (if 0 ≤ c then cz else -cz) normal)

/-- Polarization flag: the `"s" | "p"` literal of `transfer`. -/
inductive Polarization where
  | s
  | p
deriving DecidableEq

/-- Modelled from the spec: the pair of Fresnel admittances entering the
two-beam boundary relations of `optika.materials.matrices.refraction`
(not under `src/`), for the chosen polarization (spec §4.2). -/
def fresnelQ (polarization : Polarization) (n_left n_right cos_left cos_right : Cx R) :
    Cx R × Cx R :=
  match polarization with
  | .s => (n_left * cos_left, n_right * cos_right)
  | .p => (n_right * cos_left, n_left * cos_right)

/-- The attenuation factor contributed by an optional interface profile:
factor `1` when no profile is supplied (spec §4.2); otherwise the profile's
`reflectivity` at the given wavelength and (left) direction.  The checked
reflectivity is collapsed with default `0`; the well-posedness hypotheses of
the theorems require it to be a nonzero `some` value. -/
def attenuationOf (F : RealFns R) (interface : Option (InterfaceProfile R))
    (wavelength : R) (direction : V3 R) : Cx R :=
  match interface with
  | none => 1
  | some p => Cx.ofReal ((p.reflectivity F wavelength direction).getD 0)

/-- Modelled from the spec: `optika.materials.matrices.refraction`
(not under `src/`).  Per spec §4.2 the 2x2 boundary matrix comes from the
standard two-beam (Fresnel) amplitude relations,
`r = (q1 - q2) / (q1 + q2)`, `t = 2 q1 / (q1 + q2)`, giving
`(1/t) * [[1, r], [r, 1]]`, with each entry additionally scaled by the
interface-profile attenuation factor. -/
def refraction (F : RealFns R) (wavelength : R) (direction_left direction_right : V3 R)
    (polarization : Polarization) (n_left n_right : Cx R) (normal : V3 R)
    (interface : Option (InterfaceProfile R)) : Matrix (Fin 2) (Fin 2) (Cx R) :=
  let cos_left := Cx.ofReal (V3.dot direction_left normal)
  let cos_right := Cx.ofReal (V3.dot direction_right normal)
  let q := fresnelQ polarization n_left n_right cos_left cos_right
  let r := (q.1 - q.2) / (q.1 + q.2)
  let t := 2 * q.1 / (q.1 + q.2)
  let a := attenuationOf F interface wavelength direction_left
  !![a / t, a * r / t; a * r / t, a / t]

/-- Modelled from the spec: `optika.materials.matrices.propagation`
(not under `src/`).  Per spec §4.3 it is the diagonal phase matrix with the
forward factor `exp(i k d)` (where `k = 2 pi n cos(theta) / wavelength` and
`d` is the thickness) on one diagonal entry and its reciprocal on the
other. -/
def propagation (F : RealFns R) (wavelength : R) (direction : V3 R) (thickness : R)
    (n : Cx R) (normal : V3 R) : Matrix (Fin 2) (Fin 2) (Cx R) :=
  let phase := F.cexp
    (Cx.iu * (Cx.ofReal (2 * F.rpi * thickness * V3.dot direction normal / wavelength) * n))
  !![phase, 0; 0, phase⁻¹]

/-- Modelled from the spec: the integer matrix power
(`na.Cartesian2dMatrixArray.power`) used by
`PeriodicLayerSequence.transfer`, implemented by exponentiation by squaring
(spec §4.4 numeric semantics and §9: decompose the exponent into binary and
square the base per bit; exponent `0` yields the identity). -/
def matrixPower (M : Matrix (Fin 2) (Fin 2) (Cx R)) (k : Nat) :
    Matrix (Fin 2) (Fin 2) (Cx R) :=
  if k = 0 then 1
  else (if k % 2 = 1 then M else 1) * matrixPower (M * M) (k / 2)
termination_by k
decreasing_by exact Nat.div_lt_self (Nat.pos_of_ne_zero (by assumption)) (by omega)

/-- `optika.materials.Layer` (leaf): the data consumed by `transfer`.  The
`chemical` attribute resolves to a complex index-of-refraction function of
wavelength (`Layer.n`); it is represented here directly by that resolved
function, since the chemical database is an external collaborator (spec §6).
The dataclass performs no validation of `thickness`. -/
structure Layer (R : Type) where
  n : R → Cx R
  thickness : R
  interface : Option (InterfaceProfile R)

/-- The layer hierarchy `optika.materials.AbstractLayer`: a single layer, an
explicit sequence (`LayerSequence`, holding its list of children), or a
periodic repetition (`PeriodicLayerSequence`, holding the period's children
and `num_periods`).  The dataclasses perform no validation of
`num_periods`. -/
inductive AbstractLayer (R : Type) where
  | layer (l : Layer R)
  | layerSequence (layers : List (AbstractLayer R))
  | periodicLayerSequence (layers : List (AbstractLayer R)) (num_periods : Nat)

/-- The traversal-invariant arguments of `transfer`: wavelength,
polarization flag and surface normal (spec §3: wavelength and normal are
invariant through the whole traversal). -/
structure Ctx (R : Type) where
  wavelength : R
  polarization : Polarization
  normal : V3 R

/-- The value returned by `transfer`: the tuple
`(n, direction, transfer-matrix)` of `AbstractLayer.transfer`. -/
structure TR (R : Type) where
  n : Cx R
  direction : V3 R
  matrix : Matrix (Fin 2) (Fin 2) (Cx R)

mutual

/-- `AbstractLayer.transfer`, by variant:

* `Layer.transfer` (src `_layers.py:172-212`): resolve `n_internal` from the
  layer's own medium, refract the direction by Snell's law applied to the
  real parts (the source passes `wavelength / np.real(n)`, `np.real(n)` and
  `np.real(n_internal)`), then return
  `(n_internal, direction_internal, refraction @ propagation)`.
* `LayerSequence.transfer` (src `_layers.py:374-395`): fold over the children
  with the accumulator starting at the identity matrix, threading the
  returned `(n, direction)` and post-multiplying the accumulator
  (`result = result @ matrix_transfer`).
* `PeriodicLayerSequence.transfer` (src `_layers.py:483-512`): run the period
  once from the incident state (matrix `start`), run it again from the
  resulting state (matrix `periodic`), and return
  `start @ periodic.power(num_periods - 1)`. -/
def transfer (ctx : Ctx R) (F : RealFns R) :
    AbstractLayer R → Cx R → V3 R → TR R
  | .layer l, n, direction =>
    let n_internal := l.n ctx.wavelength
    let direction_internal := snells_law F (ctx.wavelength / n.re) direction
      n.re n_internal.re ctx.normal
    let refr := refraction F ctx.wavelength direction direction_internal
      ctx.polarization n n_internal ctx.normal l.interface
    let prop := propagation F ctx.wavelength direction_internal l.thickness
      n_internal ctx.normal
    ⟨n_internal, direction_internal, refr * prop⟩
  | .layerSequence layers, n, direction => transferFold ctx F layers n direction 1
  | .periodicLayerSequence layers k, n, direction =>
    let r1 := transferFold ctx F layers n direction 1
    let r2 := transferFold ctx F layers r1.n r1.direction 1
    ⟨r2.n, r2.direction, r1.matrix * matrixPower r2.matrix (k - 1)⟩

/-- The loop body of `LayerSequence.transfer`: iterate the children in
stacking order, threading `(n, direction)` and post-multiplying the matrix
accumulator. -/
def transferFold (ctx : Ctx R) (F : RealFns R) :
    List (AbstractLayer R) → Cx R → V3 R → Matrix (Fin 2) (Fin 2) (Cx R) → TR R
  | [], n, direction, acc => ⟨n, direction, acc⟩
  | l :: rest, n, direction, acc =>
    let r := transfer ctx F l n direction
    transferFold ctx F rest r.n r.direction (acc * r.matrix)

end

mutual

/-- `AbstractLayer.thickness`, by variant: a leaf reports its own thickness;
`LayerSequence.thickness` sums the children starting from `0`
(src `_layers.py:367-372`); `PeriodicLayerSequence.thickness` is
`num_periods * LayerSequence(layers).thickness` (src `_layers.py:479-481`). -/
def thickness : AbstractLayer R → R
  | .layer l => l.thickness
  | .layerSequence layers => thicknessFold layers 0
  | .periodicLayerSequence layers k => (k : R) * thicknessFold layers 0

/-- The summation loop of `LayerSequence.thickness`. -/
def thicknessFold : List (AbstractLayer R) → R → R
  | [], acc => acc
  | l :: rest, acc => thicknessFold rest (acc + thickness l)

end

mutual

/-- Validity of the media in a layer tree: every leaf's complex index at the
working wavelength has nonzero real part (spec §6: the chemical resolver
returns indices with nonnegative real refractive index; a zero real part is
not a physical medium). -/
def goodMedia (ctx : Ctx R) : AbstractLayer R → Bool
  | .layer l => decide ((l.n ctx.wavelength).re ≠ 0)
  | .layerSequence layers => goodMediaList ctx layers
  | .periodicLayerSequence layers _ => goodMediaList ctx layers

/-- `goodMedia` over a list of children. -/
def goodMediaList (ctx : Ctx R) : List (AbstractLayer R) → Bool
  | [] => true
  | l :: rest => goodMedia ctx l && goodMediaList ctx rest

end

mutual

/-- Well-posedness of a `transfer` evaluation (spec §4.2/§7: "for all
well-posed physical inputs"): along the traversal, at every leaf the Fresnel
admittances and their sum are nonzero, the interface attenuation factor is
nonzero, and the propagation phase factor is nonzero.  These are exactly the
denominators/factors of the leaf's transfer matrix. -/
def wellPosed (ctx : Ctx R) (F : RealFns R) : AbstractLayer R → Cx R → V3 R → Bool
  | .layer l, n, direction =>
    let n_internal := l.n ctx.wavelength
    let direction_internal := snells_law F (ctx.wavelength / n.re) direction
      n.re n_internal.re ctx.normal
    let cos_left := Cx.ofReal (V3.dot direction ctx.normal)
    let cos_right := Cx.ofReal (V3.dot direction_internal ctx.normal)
    let q := fresnelQ ctx.polarization n n_internal cos_left cos_right
    let a := attenuationOf F l.interface ctx.wavelength direction
    let phase := F.cexp (Cx.iu *
      (Cx.ofReal (2 * F.rpi * l.thickness * V3.dot direction_internal ctx.normal /
        ctx.wavelength) * n_internal))
    decide (q.1 ≠ 0) && decide (q.2 ≠ 0) && decide (q.1 + q.2 ≠ 0) &&
      decide (a ≠ 0) && decide (phase ≠ 0)
  | .layerSequence layers, n, direction => wellPosedList ctx F layers n direction
  | .periodicLayerSequence layers _, n, direction =>
    let r1 := transferFold ctx F layers n direction 1
    wellPosedList ctx F layers n direction &&
      wellPosedList ctx F layers r1.n r1.direction

/-- `wellPosed` along a sequence of children, threading the evolving
`(n, direction)` state. -/
def wellPosedList (ctx : Ctx R) (F : RealFns R) :
    List (AbstractLayer R) → Cx R → V3 R → Bool
  | [], _, _ => true
  | l :: rest, n, direction =>
    let r := transfer ctx F l n direction
    wellPosed ctx F l n direction && wellPosedList ctx F rest r.n r.direction

end

/-- Construction of a `Layer`: the Python dataclass `__init__` merely stores
the field values; there is no `__post_init__` and no validation of
`thickness`. -/
def Layer.make (n : R → Cx R) (thickness : R) (interface : Option (InterfaceProfile R)) :
    Layer R :=
  ⟨n, thickness, interface⟩

/-- Construction of a `PeriodicLayerSequence`: the dataclass stores `layers`
and `num_periods` with no validation of `num_periods`. -/
def PeriodicLayerSequence.make (layers : List (AbstractLayer R)) (num_periods : Nat) :
    AbstractLayer R :=
  .periodicLayerSequence layers num_periods

/-- The stored `num_periods` of a periodic sequence (`0` for other
variants). -/
def numPeriods : AbstractLayer R → Nat
  | .periodicLayerSequence _ k => k
  | _ => 0

/-- Derived notion: the `(n, direction)` state after a single `transfer`
step, disregarding the matrix. -/
def stateT (ctx : Ctx R) (F : RealFns R) (l : AbstractLayer R) (s : Cx R × V3 R) :
    Cx R × V3 R :=
  let r := transfer ctx F l s.1 s.2
  (r.n, r.direction)

/-- Derived notion: the `(n, direction)` state after traversing a list of
children. -/
def stateL (ctx : Ctx R) (F : RealFns R) (ls : List (AbstractLayer R)) (s : Cx R × V3 R) :
    Cx R × V3 R :=
  let r := transferFold ctx F ls s.1 s.2 1
  (r.n, r.direction)

/-- Derived notion: a state update behaves like a single Snell refraction
into some fixed exit medium `nu` with nonzero real index (or is the
identity).  Every layer tree's state update has this shape; it is the
invariant behind the periodic-sequence optimization. -/
def SnellLike (ctx : Ctx R) (F : RealFns R) (f : Cx R × V3 R → Cx R × V3 R) : Prop :=
  (∀ s, f s = s) ∨
    ∃ nu : Cx R, nu.re ≠ 0 ∧ ∀ s, f s =
      (nu, snells_law F (ctx.wavelength / (s.1).re) s.2 (s.1).re nu.re ctx.normal)

end Pipeline

section BasicLemmas

variable [LinearOrderedField R]

@[simp]
theorem Cx.zero_re : (0 : Cx R).re = 0 := rfl

@[simp]
theorem Cx.zero_im : (0 : Cx R).im = 0 := rfl

@[simp]
theorem Cx.one_re : (1 : Cx R).re = 1 := rfl

@[simp]
theorem Cx.one_im : (1 : Cx R).im = 0 := rfl

@[simp]
theorem Cx.add_re (a b : Cx R) : (a + b).re = a.re + b.re := rfl

@[simp]
theorem Cx.add_im (a b : Cx R) : (a + b).im = a.im + b.im := rfl

@[simp]
theorem Cx.neg_re (a : Cx R) : (-a).re = -a.re := rfl

@[simp]
theorem Cx.neg_im (a : Cx R) : (-a).im = -a.im := rfl

@[simp]
theorem Cx.mul_re (a b : Cx R) : (a * b).re = a.re * b.re - a.im * b.im := rfl

@[simp]
theorem Cx.mul_im (a b : Cx R) : (a * b).im = a.re * b.im + a.im * b.re := rfl

@[simp]
theorem Cx.ofReal_re (r : R) : (Cx.ofReal r).re = r := rfl

@[simp]
theorem Cx.ofReal_im (r : R) : (Cx.ofReal r).im = 0 := rfl

theorem Cx.zero_def : (0 : Cx R) = ⟨0, 0⟩ := rfl

theorem Cx.one_def : (1 : Cx R) = ⟨1, 0⟩ := rfl

theorem Cx.mk_add_mk (a b c d : R) : (⟨a, b⟩ : Cx R) + ⟨c, d⟩ = ⟨a + c, b + d⟩ := rfl

theorem Cx.mk_mul_mk (a b c d : R) :
    (⟨a, b⟩ : Cx R) * ⟨c, d⟩ = ⟨a * c - b * d, a * d + b * c⟩ := rfl

theorem Cx.ofReal_eq_zero_iff (r : R) : Cx.ofReal r = 0 ↔ r = 0 := by
  constructor
  · intro h
    simpa using congrArg Cx.re h
  · rintro rfl
    rfl

theorem Cx.two_ne_zero : (2 : Cx R) ≠ 0 := by
  intro h
  have h2 : (1 : Cx R) + 1 = 0 := by rw [one_add_one_eq_two]; exact h
  have h3 := congrArg Cx.re h2
  simp only [Cx.add_re, Cx.one_re, Cx.zero_re] at h3
  norm_num at h3

theorem V3.dot_add_left (a b c : V3 R) :
    V3.dot (V3.add a b) c = V3.dot a c + V3.dot b c := by
  simp only [V3.dot, V3.add]
  ring

theorem V3.dot_sub_left (a b c : V3 R) :
    V3.dot (V3.sub a b) c = V3.dot a c - V3.dot b c := by
  simp only [V3.dot, V3.sub]
  ring

theorem V3.dot_smul_left (r : R) (a b : V3 R) :
    V3.dot (V3.smul r a) b = r * V3.dot a b := by
  simp only [V3.dot, V3.smul]
  ring

theorem V3.smul_smul (r t : R) (a : V3 R) :
    V3.smul r (V3.smul t a) = V3.smul (r * t) a := by
  simp only [V3.smul, V3.mk.injEq]
  refine ⟨by ring, by ring, by ring⟩

end BasicLemmas

section SnellLemmas

variable [LinearOrderedField R]

/-- Transitivity of the modelled Snell direction update: refracting from
index `n0` to `n1` and then from `n1` to `n2` equals refracting from `n0`
directly to `n2`, for a unit normal, a positive-valued square-root model and
a nonzero intermediate index.  The wavelength arguments are irrelevant to the
direction update. -/
theorem snells_law_trans (F : RealFns R) (nrm : V3 R) (hn : V3.dot nrm nrm = 1)
    (hsq : ∀ x, 0 < F.sq x) (d : V3 R) (n0 n1 n2 : R) (h1 : n1 ≠ 0) (w1 w2 w3 : R) :
    snells_law F w2 (snells_law F w1 d n0 n1 nrm) n1 n2 nrm =
      snells_law F w3 d n0 n2 nrm := by
  simp only [snells_law]
  set c0 := V3.dot d nrm with hc0
  set t0 := V3.sub d (V3.smul c0 nrm) with ht0
  set tt1 := V3.smul (n0 / n1) t0 with htt1
  set cz1 := F.sq (1 - V3.dot tt1 tt1) with hcz1
  set s1 := if 0 ≤ c0 then cz1 else -cz1 with hs1
  set d1 := V3.add tt1 (V3.smul s1 nrm) with hd1
  have h_t0_nrm : V3.dot t0 nrm = 0 := by
    rw [ht0, V3.dot_sub_left, V3.dot_smul_left, hn]
    ring
  have h_c1 : V3.dot d1 nrm = s1 := by
    rw [hd1, V3.dot_add_left, htt1, V3.dot_smul_left, h_t0_nrm, V3.dot_smul_left, hn]
    ring
  have h_t1 : V3.sub d1 (V3.smul s1 nrm) = tt1 := by
    rw [hd1, htt1]
    simp only [V3.sub, V3.add, V3.smul]
    congr 1 <;> ring
  have h_tt2 : V3.smul (n1 / n2) tt1 = V3.smul (n0 / n2) t0 := by
    rw [htt1, V3.smul_smul, div_mul_div_comm, mul_comm n2 n1, mul_div_mul_left n0 n2 h1]
  rw [h_c1, h_t1, h_tt2]
  have h_sign : (if 0 ≤ s1 then F.sq (1 - V3.dot (V3.smul (n0 / n2) t0) (V3.smul (n0 / n2) t0))
      else -F.sq (1 - V3.dot (V3.smul (n0 / n2) t0) (V3.smul (n0 / n2) t0))) =
      (if 0 ≤ c0 then F.sq (1 - V3.dot (V3.smul (n0 / n2) t0) (V3.smul (n0 / n2) t0))
      else -F.sq (1 - V3.dot (V3.smul (n0 / n2) t0) (V3.smul (n0 / n2) t0))) := by
    by_cases h : 0 ≤ c0
    · rw [if_pos h, if_pos]
      rw [hs1, if_pos h]
      exact le_of_lt (hsq _)
    · rw [if_neg h, if_neg]
      rw [hs1, if_neg h]
      simp only [Left.nonneg_neg_iff]
      intro hle
      exact absurd (lt_of_lt_of_le (hsq _) hle) (lt_irrefl 0)
  rw [h_sign]

end SnellLemmas

section TransferLemmas

variable [LinearOrderedField R]

omit [LinearOrderedField R] in
@[ext]
theorem TR.ext {a b : TR R} (hn : a.n = b.n) (hd : a.direction = b.direction)
    (hm : a.matrix = b.matrix) : a = b := by
  cases a
  cases b
  cases hn
  cases hd
  cases hm
  rfl

/-- Unfolding equation: a `LayerSequence` transfer is the fold over its
children with the accumulator starting at the identity matrix. -/
theorem transfer_layerSequence (ctx : Ctx R) (F : RealFns R)
    (ls : List (AbstractLayer R)) (n : Cx R) (d : V3 R) :
    transfer ctx F (.layerSequence ls) n d = transferFold ctx F ls n d 1 := by
  simp [transfer]

/-- Unfolding equation for `PeriodicLayerSequence.transfer`: two evaluations
of the period, then `start @ periodic.power(num_periods - 1)`. -/
theorem transfer_periodicLayerSequence (ctx : Ctx R) (F : RealFns R)
    (ls : List (AbstractLayer R)) (k : Nat) (n : Cx R) (d : V3 R) :
    transfer ctx F (.periodicLayerSequence ls k) n d =
      ⟨(transferFold ctx F ls (transferFold ctx F ls n d 1).n
          (transferFold ctx F ls n d 1).direction 1).n,
        (transferFold ctx F ls (transferFold ctx F ls n d 1).n
          (transferFold ctx F ls n d 1).direction 1).direction,
        (transferFold ctx F ls n d 1).matrix *
          matrixPower (transferFold ctx F ls (transferFold ctx F ls n d 1).n
            (transferFold ctx F ls n d 1).direction 1).matrix (k - 1)⟩ := by
  simp [transfer]

/-- Unfolding equation for the leaf `Layer.transfer`. -/
theorem transfer_layer (ctx : Ctx R) (F : RealFns R) (l : Layer R) (n : Cx R) (d : V3 R) :
    transfer ctx F (.layer l) n d =
      ⟨l.n ctx.wavelength,
        snells_law F (ctx.wavelength / n.re) d n.re (l.n ctx.wavelength).re ctx.normal,
        refraction F ctx.wavelength d
            (snells_law F (ctx.wavelength / n.re) d n.re (l.n ctx.wavelength).re ctx.normal)
            ctx.polarization n (l.n ctx.wavelength) ctx.normal l.interface *
          propagation F ctx.wavelength
            (snells_law F (ctx.wavelength / n.re) d n.re (l.n ctx.wavelength).re ctx.normal)
            l.thickness (l.n ctx.wavelength) ctx.normal⟩ := by
  simp [transfer]

/-- The matrix accumulator of the `LayerSequence` fold factors out on the
left; the threaded `(n, direction)` state does not depend on it. -/
theorem transferFold_acc_matrix (ctx : Ctx R) (F : RealFns R)
    (ls : List (AbstractLayer R)) :
    ∀ (n : Cx R) (d : V3 R) (a m : Matrix (Fin 2) (Fin 2) (Cx R)),
      transferFold ctx F ls n d (a * m) =
        ⟨(transferFold ctx F ls n d m).n, (transferFold ctx F ls n d m).direction,
          a * (transferFold ctx F ls n d m).matrix⟩ := by
  induction ls with
  | nil =>
    intro n d a m
    simp [transferFold]
  | cons l rest ih =>
    intro n d a m
    simp only [transferFold]
    rw [mul_assoc, ih]

/-- Normal form of an accumulator: running the fold from `acc` equals
running it from the identity and multiplying `acc` on the left. -/
theorem transferFold_one (ctx : Ctx R) (F : RealFns R) (ls : List (AbstractLayer R))
    (n : Cx R) (d : V3 R) (acc : Matrix (Fin 2) (Fin 2) (Cx R)) :
    transferFold ctx F ls n d acc =
      ⟨(transferFold ctx F ls n d 1).n, (transferFold ctx F ls n d 1).direction,
        acc * (transferFold ctx F ls n d 1).matrix⟩ := by
  have h := transferFold_acc_matrix ctx F ls n d acc 1
  rw [mul_one] at h
  exact h

/-- Appending child lists composes the folds. -/
theorem transferFold_append (ctx : Ctx R) (F : RealFns R)
    (xs ys : List (AbstractLayer R)) :
    ∀ (n : Cx R) (d : V3 R) (acc : Matrix (Fin 2) (Fin 2) (Cx R)),
      transferFold ctx F (xs ++ ys) n d acc =
        transferFold ctx F ys (transferFold ctx F xs n d acc).n
          (transferFold ctx F xs n d acc).direction
          (transferFold ctx F xs n d acc).matrix := by
  induction xs with
  | nil =>
    intro n d acc
    simp [transferFold]
  | cons l rest ih =>
    intro n d acc
    simp only [List.cons_append, transferFold]
    exact ih _ _ _

/-- The modelled exponentiation-by-squaring agrees with the monoid power. -/
theorem matrixPower_eq_pow (M : Matrix (Fin 2) (Fin 2) (Cx R)) (k : Nat) :
    matrixPower M k = M ^ k := by
  induction k using Nat.strong_induction_on generalizing M with
  | _ k ih =>
    by_cases h : k = 0
    · subst h
      rw [matrixPower]
      simp
    · rw [matrixPower, if_neg h]
      have hlt : k / 2 < k := Nat.div_lt_self (Nat.pos_of_ne_zero h) (by omega)
      rw [ih _ hlt]
      have h2 : (M * M) ^ (k / 2) = M ^ (2 * (k / 2)) := by
        rw [← pow_two, ← pow_mul]
      by_cases ho : k % 2 = 1
      · rw [if_pos ho, h2, ← pow_succ']
        congr 1
        omega
      · rw [if_neg ho, one_mul, h2]
        congr 1
        omega

/-- The state after a single-`Layer` transfer. -/
theorem stateT_layer (ctx : Ctx R) (F : RealFns R) (l : Layer R) (s : Cx R × V3 R) :
    stateT ctx F (.layer l) s =
      (l.n ctx.wavelength,
        snells_law F (ctx.wavelength / (s.1).re) s.2 (s.1).re
          (l.n ctx.wavelength).re ctx.normal) := by
  simp [stateT, transfer]

/-- The state after a `LayerSequence` transfer is the fold state. -/
theorem stateT_layerSequence (ctx : Ctx R) (F : RealFns R)
    (ls : List (AbstractLayer R)) (s : Cx R × V3 R) :
    stateT ctx F (.layerSequence ls) s = stateL ctx F ls s := by
  simp [stateT, stateL, transfer]

/-- The state after a `PeriodicLayerSequence` transfer is two period-state
updates (the matrix power does not feed back into the state). -/
theorem stateT_periodicLayerSequence (ctx : Ctx R) (F : RealFns R)
    (ls : List (AbstractLayer R)) (k : Nat) (s : Cx R × V3 R) :
    stateT ctx F (.periodicLayerSequence ls k) s =
      stateL ctx F ls (stateL ctx F ls s) := by
  simp [stateT, stateL, transfer]

/-- The empty sequence leaves the state unchanged. -/
theorem stateL_nil (ctx : Ctx R) (F : RealFns R) (s : Cx R × V3 R) :
    stateL ctx F [] s = s := by
  simp [stateL, transferFold]

/-- Sequencing states: first child, then the rest. -/
theorem stateL_cons (ctx : Ctx R) (F : RealFns R) (l : AbstractLayer R)
    (rest : List (AbstractLayer R)) (s : Cx R × V3 R) :
    stateL ctx F (l :: rest) s = stateL ctx F rest (stateT ctx F l s) := by
  simp only [stateL, stateT, transferFold]
  rw [transferFold_one]

/-- `SnellLike` respects pointwise equality of updates. -/
theorem snellLike_congr (ctx : Ctx R) (F : RealFns R)
    {f g : Cx R × V3 R → Cx R × V3 R} (hfg : ∀ s, f s = g s)
    (hg : SnellLike ctx F g) : SnellLike ctx F f := by
  cases hg with
  | inl h => exact Or.inl fun s => (hfg s).trans (h s)
  | inr h =>
    obtain ⟨nu, hnu, h⟩ := h
    exact Or.inr ⟨nu, hnu, fun s => (hfg s).trans (h s)⟩

/-- Composition of `SnellLike` updates is `SnellLike`: the heart of the
periodic-stack argument, justified by the transitivity of the Snell
direction update. -/
theorem snellLike_comp (ctx : Ctx R) (F : RealFns R)
    (hn : V3.dot ctx.normal ctx.normal = 1) (hsq : ∀ x, 0 < F.sq x)
    {f g : Cx R × V3 R → Cx R × V3 R}
    (hf : SnellLike ctx F f) (hg : SnellLike ctx F g) :
    SnellLike ctx F fun s => g (f s) := by
  cases hf with
  | inl hf =>
    cases hg with
    | inl hg =>
      refine Or.inl fun s => ?_
      show g (f s) = s
      rw [hf s, hg s]
    | inr hg =>
      obtain ⟨nu, hnu, hg⟩ := hg
      refine Or.inr ⟨nu, hnu, fun s => ?_⟩
      show g (f s) =
        (nu, snells_law F (ctx.wavelength / (s.1).re) s.2 (s.1).re nu.re ctx.normal)
      rw [hf s, hg s]
  | inr hf =>
    obtain ⟨nu1, hnu1, hf⟩ := hf
    cases hg with
    | inl hg =>
      refine Or.inr ⟨nu1, hnu1, fun s => ?_⟩
      show g (f s) =
        (nu1, snells_law F (ctx.wavelength / (s.1).re) s.2 (s.1).re nu1.re ctx.normal)
      rw [hg (f s), hf s]
    | inr hg =>
      obtain ⟨nu2, hnu2, hg⟩ := hg
      refine Or.inr ⟨nu2, hnu2, fun s => ?_⟩
      show g (f s) =
        (nu2, snells_law F (ctx.wavelength / (s.1).re) s.2 (s.1).re nu2.re ctx.normal)
      rw [hg (f s), hf s]
      exact Prod.ext rfl
        (snells_law_trans F ctx.normal hn hsq s.2 (s.1).re nu1.re nu2.re hnu1
          (ctx.wavelength / (s.1).re) (ctx.wavelength / nu1.re)
          (ctx.wavelength / (s.1).re))

/-- A `SnellLike` update is idempotent: the state reached after one period
is a fixed point of the period's state update. -/
theorem snellLike_fix (ctx : Ctx R) (F : RealFns R)
    (hn : V3.dot ctx.normal ctx.normal = 1) (hsq : ∀ x, 0 < F.sq x)
    {f : Cx R × V3 R → Cx R × V3 R} (hf : SnellLike ctx F f) (s : Cx R × V3 R) :
    f (f s) = f s := by
  cases hf with
  | inl hf => rw [hf (f s)]
  | inr hf =>
    obtain ⟨nu, hnu, hf⟩ := hf
    rw [hf (f s), hf s]
    exact Prod.ext rfl
      (snells_law_trans F ctx.normal hn hsq s.2 (s.1).re nu.re nu.re hnu
        (ctx.wavelength / (s.1).re) (ctx.wavelength / nu.re)
        (ctx.wavelength / (s.1).re))

end TransferLemmas

section StateMachine

variable [LinearOrderedField R]

mutual

/-- Every layer tree with valid media has a `SnellLike` state update. -/
theorem snellLike_transfer (ctx : Ctx R) (F : RealFns R)
    (hn : V3.dot ctx.normal ctx.normal = 1) (hsq : ∀ x, 0 < F.sq x) :
    (l : AbstractLayer R) → goodMedia ctx l = true → SnellLike ctx F (stateT ctx F l)
  | .layer ld, hg =>
    Or.inr ⟨ld.n ctx.wavelength, by simpa [goodMedia] using hg,
      fun s => stateT_layer ctx F ld s⟩
  | .layerSequence ls, hg =>
    snellLike_congr ctx F (stateT_layerSequence ctx F ls)
      (snellLike_fold ctx F hn hsq ls (by simpa [goodMedia] using hg))
  | .periodicLayerSequence ls k, hg =>
    have h := snellLike_fold ctx F hn hsq ls (by simpa [goodMedia] using hg)
    snellLike_congr ctx F (stateT_periodicLayerSequence ctx F ls k)
      (snellLike_comp ctx F hn hsq h h)

/-- Every list of children with valid media has a `SnellLike` composite
state update. -/
theorem snellLike_fold (ctx : Ctx R) (F : RealFns R)
    (hn : V3.dot ctx.normal ctx.normal = 1) (hsq : ∀ x, 0 < F.sq x) :
    (ls : List (AbstractLayer R)) → goodMediaList ctx ls = true →
      SnellLike ctx F (stateL ctx F ls)
  | [], _ => Or.inl fun s => stateL_nil ctx F s
  | l :: rest, hg =>
    have hgl : goodMedia ctx l = true := by
      have h := hg
      simp only [goodMediaList, Bool.and_eq_true] at h
      exact h.1
    have hgr : goodMediaList ctx rest = true := by
      have h := hg
      simp only [goodMediaList, Bool.and_eq_true] at h
      exact h.2
    snellLike_congr ctx F (fun s => stateL_cons ctx F l rest s)
      (snellLike_comp ctx F hn hsq (snellLike_transfer ctx F hn hsq l hgl)
        (snellLike_fold ctx F hn hsq rest hgr))

end

/-- The state reached after one traversal of a period is a fixed point of
the period's state update: the converged-state assumption behind
`PeriodicLayerSequence.transfer`. -/
theorem stateL_fix (ctx : Ctx R) (F : RealFns R)
    (hn : V3.dot ctx.normal ctx.normal = 1) (hsq : ∀ x, 0 < F.sq x)
    (ls : List (AbstractLayer R)) (hg : goodMediaList ctx ls = true)
    (s : Cx R × V3 R) :
    stateL ctx F ls (stateL ctx F ls s) = stateL ctx F ls s :=
  snellLike_fix ctx F hn hsq (snellLike_fold ctx F hn hsq ls hg) s

/-- Transfer of `j + 1` literal copies of a period: the matrix is the
first-period matrix times the `j`-th power of the second-period matrix, and
the exit state is the one-period state. -/
theorem transferFold_replicate (ctx : Ctx R) (F : RealFns R)
    (hn : V3.dot ctx.normal ctx.normal = 1) (hsq : ∀ x, 0 < F.sq x)
    (ls : List (AbstractLayer R)) (hg : goodMediaList ctx ls = true) :
    ∀ (j : Nat) (n : Cx R) (d : V3 R),
      transferFold ctx F (List.flatten (List.replicate (j + 1) ls)) n d 1 =
        ⟨(stateL ctx F ls (n, d)).1, (stateL ctx F ls (n, d)).2,
          (transferFold ctx F ls n d 1).matrix *
            (transferFold ctx F ls (stateL ctx F ls (n, d)).1
              (stateL ctx F ls (n, d)).2 1).matrix ^ j⟩ := by
  intro j
  induction j with
  | zero =>
    intro n d
    simp only [List.replicate_succ, List.replicate_zero, List.flatten_cons,
      List.flatten_nil, List.append_nil, pow_zero, mul_one]
    exact TR.ext rfl rfl rfl
  | succ j ih =>
    intro n d
    rw [List.replicate_succ, List.flatten_cons, transferFold_append, transferFold_one,
      ih (transferFold ctx F ls n d 1).n (transferFold ctx F ls n d 1).direction]
    have hpair : ((transferFold ctx F ls n d 1).n,
        (transferFold ctx F ls n d 1).direction) = stateL ctx F ls (n, d) := rfl
    rw [hpair, stateL_fix ctx F hn hsq ls hg (n, d)]
    have hM : transferFold ctx F ls (transferFold ctx F ls n d 1).n
        (transferFold ctx F ls n d 1).direction 1 =
        transferFold ctx F ls (stateL ctx F ls (n, d)).1 (stateL ctx F ls (n, d)).2 1 := rfl
    refine TR.ext rfl rfl ?_
    rw [hM, ← pow_succ']

end StateMachine

section DetLemmas

variable [LinearOrderedField R]

theorem Cx.four_ne_zero : (4 : Cx R) ≠ 0 := by
  have h : (2 : Cx R) * 2 = 4 := by norm_num
  rw [← h]
  exact mul_ne_zero Cx.two_ne_zero Cx.two_ne_zero

/-- Determinant of the modelled Fresnel boundary matrix: nonzero whenever
the two admittances, their sum and the attenuation factor are nonzero (its
value is `a^2 * q2 / q1`). -/
theorem det_refraction_ne_zero (F : RealFns R) (wavelength : R)
    (direction_left direction_right : V3 R) (polarization : Polarization)
    (n_left n_right : Cx R) (normal : V3 R) (interface : Option (InterfaceProfile R))
    (hq1 : (fresnelQ polarization n_left n_right
      (Cx.ofReal (V3.dot direction_left normal))
      (Cx.ofReal (V3.dot direction_right normal))).1 ≠ 0)
    (hq2 : (fresnelQ polarization n_left n_right
      (Cx.ofReal (V3.dot direction_left normal))
      (Cx.ofReal (V3.dot direction_right normal))).2 ≠ 0)
    (hsum : (fresnelQ polarization n_left n_right
        (Cx.ofReal (V3.dot direction_left normal))
        (Cx.ofReal (V3.dot direction_right normal))).1 +
      (fresnelQ polarization n_left n_right
        (Cx.ofReal (V3.dot direction_left normal))
        (Cx.ofReal (V3.dot direction_right normal))).2 ≠ 0)
    (ha : attenuationOf F interface wavelength direction_left ≠ 0) :
    (refraction F wavelength direction_left direction_right polarization
      n_left n_right normal interface).det ≠ 0 := by
  simp only [refraction, Matrix.det_fin_two_of]
  set q1 := (fresnelQ polarization n_left n_right
    (Cx.ofReal (V3.dot direction_left normal))
    (Cx.ofReal (V3.dot direction_right normal))).1 with hq1def
  set q2 := (fresnelQ polarization n_left n_right
    (Cx.ofReal (V3.dot direction_left normal))
    (Cx.ofReal (V3.dot direction_right normal))).2 with hq2def
  set a := attenuationOf F interface wavelength direction_left with hadef
  have ht : 2 * q1 / (q1 + q2) ≠ 0 :=
    div_ne_zero (mul_ne_zero Cx.two_ne_zero hq1) hsum
  have hval : a / (2 * q1 / (q1 + q2)) * (a / (2 * q1 / (q1 + q2))) -
      a * ((q1 - q2) / (q1 + q2)) / (2 * q1 / (q1 + q2)) *
        (a * ((q1 - q2) / (q1 + q2)) / (2 * q1 / (q1 + q2))) =
      (a / (2 * q1 / (q1 + q2))) ^ 2 * (1 - ((q1 - q2) / (q1 + q2)) ^ 2) := by
    ring
  have hr : (1 : Cx R) - ((q1 - q2) / (q1 + q2)) ^ 2 = 4 * q1 * q2 / (q1 + q2) ^ 2 := by
    field_simp
    ring
  rw [hval, hr]
  exact mul_ne_zero (pow_ne_zero 2 (div_ne_zero ha ht))
    (div_ne_zero (mul_ne_zero (mul_ne_zero Cx.four_ne_zero hq1) hq2)
      (pow_ne_zero 2 hsum))

/-- Determinant of the modelled propagation (phase) matrix: `1` whenever
the phase factor is nonzero. -/
theorem det_propagation_eq_one (F : RealFns R) (wavelength : R) (direction : V3 R)
    (thickness : R) (n : Cx R) (normal : V3 R)
    (hp : F.cexp (Cx.iu * (Cx.ofReal
      (2 * F.rpi * thickness * V3.dot direction normal / wavelength) * n)) ≠ 0) :
    (propagation F wavelength direction thickness n normal).det = 1 := by
  simp only [propagation, Matrix.det_fin_two_of]
  rw [mul_inv_cancel₀ hp]
  simp

mutual

/-- Nonzero determinant of the transfer matrix of any layer tree, given
well-posedness of the traversal. -/
theorem det_transfer_ne_zero (ctx : Ctx R) (F : RealFns R) :
    (l : AbstractLayer R) → (n : Cx R) → (d : V3 R) →
      wellPosed ctx F l n d = true → (transfer ctx F l n d).matrix.det ≠ 0
  | .layer l, n, d, h => by
    have hh := h
    simp only [wellPosed, Bool.and_eq_true, decide_eq_true_eq] at hh
    obtain ⟨⟨⟨⟨hq1, hq2⟩, hsum⟩, ha⟩, hp⟩ := hh
    rw [transfer_layer, Matrix.det_mul]
    exact mul_ne_zero
      (det_refraction_ne_zero F ctx.wavelength d _ ctx.polarization n
        (l.n ctx.wavelength) ctx.normal l.interface hq1 hq2 hsum ha)
      (by
        rw [det_propagation_eq_one F ctx.wavelength _ l.thickness
          (l.n ctx.wavelength) ctx.normal hp]
        exact one_ne_zero)
  | .layerSequence ls, n, d, h => by
    have hh := h
    simp only [wellPosed] at hh
    rw [transfer_layerSequence]
    exact det_transferFold_ne_zero ctx F ls n d 1 hh
      (by rw [Matrix.det_one]; exact one_ne_zero)
  | .periodicLayerSequence ls k, n, d, h => by
    have hh := h
    simp only [wellPosed, Bool.and_eq_true] at hh
    obtain ⟨h1, h2⟩ := hh
    rw [transfer_periodicLayerSequence]
    have hd1 : (transferFold ctx F ls n d 1).matrix.det ≠ 0 :=
      det_transferFold_ne_zero ctx F ls n d 1 h1
        (by rw [Matrix.det_one]; exact one_ne_zero)
    have hd2 : (transferFold ctx F ls (transferFold ctx F ls n d 1).n
        (transferFold ctx F ls n d 1).direction 1).matrix.det ≠ 0 :=
      det_transferFold_ne_zero ctx F ls (transferFold ctx F ls n d 1).n
        (transferFold ctx F ls n d 1).direction 1 h2
        (by rw [Matrix.det_one]; exact one_ne_zero)
    rw [Matrix.det_mul, matrixPower_eq_pow, Matrix.det_pow]
    exact mul_ne_zero hd1 (pow_ne_zero _ hd2)

/-- Nonzero determinant along a `LayerSequence` fold, given a nonzero
accumulator determinant. -/
theorem det_transferFold_ne_zero (ctx : Ctx R) (F : RealFns R) :
    (ls : List (AbstractLayer R)) → (n : Cx R) → (d : V3 R) →
      (acc : Matrix (Fin 2) (Fin 2) (Cx R)) →
      wellPosedList ctx F ls n d = true → acc.det ≠ 0 →
      (transferFold ctx F ls n d acc).matrix.det ≠ 0
  | [], n, d, acc, _, hacc => by
    simpa [transferFold] using hacc
  | l :: rest, n, d, acc, h, hacc => by
    have hh := h
    simp only [wellPosedList, Bool.and_eq_true] at hh
    obtain ⟨h1, h2⟩ := hh
    have hstep : (acc * (transfer ctx F l n d).matrix).det ≠ 0 := by
      rw [Matrix.det_mul]
      exact mul_ne_zero hacc (det_transfer_ne_zero ctx F l n d h1)
    simpa [transferFold] using
      det_transferFold_ne_zero ctx F rest (transfer ctx F l n d).n
        (transfer ctx F l n d).direction (acc * (transfer ctx F l n d).matrix) h2 hstep

end

end DetLemmas

section Claims

variable [LinearOrderedField R]

/-- C1: for every sequence of layers `L`, every repeat count `k >= 1`, and
every valid input (wavelength, direction, polarization, incident index `n`,
normal — validity: unit normal, a positive square-root model, and layer
media with nonzero real refractive index), `PeriodicLayerSequence(L, k)`'s
`transfer` returns the same exit index, exit direction and end-to-end 2x2
transfer matrix as the `LayerSequence` built by concatenating `L` `k` times,
where the periodic variant computes the period transfer twice and composes
`start_matrix @ period_matrix^(k-1)`. -/
theorem periodic_transfer_equals_concatenated (ctx : Ctx R) (F : RealFns R)
    (hn : V3.dot ctx.normal ctx.normal = 1) (hsq : ∀ x, 0 < F.sq x)
    (L : List (AbstractLayer R)) (k : Nat) (hk : 1 ≤ k)
    (hg : goodMediaList ctx L = true) (n : Cx R) (d : V3 R) :
    transfer ctx F (.periodicLayerSequence L k) n d =
      transfer ctx F (.layerSequence (List.flatten (List.replicate k L))) n d := by
  obtain ⟨j, rfl⟩ : ∃ j, k = j + 1 := ⟨k - 1, by omega⟩
  rw [transfer_periodicLayerSequence, transfer_layerSequence,
    transferFold_replicate ctx F hn hsq L hg j n d, matrixPower_eq_pow]
  have hj : j + 1 - 1 = j := by omega
  rw [hj]
  refine TR.ext ?_ ?_ ?_
  · exact congrArg Prod.fst (stateL_fix ctx F hn hsq L hg (n, d))
  · exact congrArg Prod.snd (stateL_fix ctx F hn hsq L hg (n, d))
  · rfl

/-- Concrete witness for C1: a two-layer Si/Mo-like period repeated 3 times
over `ℚ`, at normal incidence with the test geometry
(`direction = (0,0,1)`, `normal = (0,0,-1)`). -/
theorem periodic_transfer_equals_concatenated_witness :
    V3.dot (⟨0, 0, -1⟩ : V3 ℚ) ⟨0, 0, -1⟩ = 1 ∧
    (∀ x : ℚ, 0 < (⟨fun _ => 1, fun _ => 0, fun _ => 0, 3, 1, 1, fun _ => 1,
      fun _ => 1⟩ : RealFns ℚ).sq x) ∧
    1 ≤ 3 ∧
    goodMediaList (⟨1, .s, ⟨0, 0, -1⟩⟩ : Ctx ℚ)
      [.layer ⟨fun _ => ⟨2, 0⟩, 3, none⟩, .layer ⟨fun _ => ⟨3, 1⟩, 4, none⟩] = true ∧
    transfer (⟨1, .s, ⟨0, 0, -1⟩⟩ : Ctx ℚ)
        ⟨fun _ => 1, fun _ => 0, fun _ => 0, 3, 1, 1, fun _ => 1, fun _ => 1⟩
        (.periodicLayerSequence
          [.layer ⟨fun _ => ⟨2, 0⟩, 3, none⟩, .layer ⟨fun _ => ⟨3, 1⟩, 4, none⟩] 3)
        1 ⟨0, 0, 1⟩ =
      transfer (⟨1, .s, ⟨0, 0, -1⟩⟩ : Ctx ℚ)
        ⟨fun _ => 1, fun _ => 0, fun _ => 0, 3, 1, 1, fun _ => 1, fun _ => 1⟩
        (.layerSequence (List.flatten (List.replicate 3
          [.layer ⟨fun _ => ⟨2, 0⟩, 3, none⟩, .layer ⟨fun _ => ⟨3, 1⟩, 4, none⟩])))
        1 ⟨0, 0, 1⟩ := by
  refine ⟨by norm_num [V3.dot], fun x => one_pos, by norm_num, ?_, ?_⟩
  · simp [goodMediaList, goodMedia]
  · exact periodic_transfer_equals_concatenated _ _ (by norm_num [V3.dot]) (fun x => one_pos)
      _ 3 (by norm_num) (by simp [goodMediaList, goodMedia]) 1 ⟨0, 0, 1⟩

/-- The `LayerSequence.thickness` accumulator loop computes `acc` plus the
sum of the children's thicknesses. -/
theorem thicknessFold_eq (ls : List (AbstractLayer R)) :
    ∀ acc : R, thicknessFold ls acc = acc + (ls.map thickness).sum := by
  induction ls with
  | nil =>
    intro acc
    simp [thicknessFold]
  | cons l rest ih =>
    intro acc
    simp only [thicknessFold, List.map_cons, List.sum_cons]
    rw [ih]
    ring

/-- C2: for every layer stack (single `Layer`, `LayerSequence` or
`PeriodicLayerSequence`) and every valid (well-posed) input, the 2x2 complex
transfer matrix returned by `transfer` has nonzero determinant.  (In this
model over a field there are no non-finite values; the well-posedness
condition excludes exactly the zero denominators and zero factors whose
float evaluation would produce non-finite entries.) -/
theorem transfer_matrix_det_nonzero (ctx : Ctx R) (F : RealFns R)
    (l : AbstractLayer R) (n : Cx R) (d : V3 R)
    (h : wellPosed ctx F l n d = true) :
    (transfer ctx F l n d).matrix.det ≠ 0 :=
  det_transfer_ne_zero ctx F l n d h

/-- Witness for C2: a single silicon-like layer over `ℚ` at the test
geometry is well posed and its transfer matrix has nonzero determinant. -/
theorem transfer_matrix_det_nonzero_witness :
    wellPosed (⟨1, .s, ⟨0, 0, -1⟩⟩ : Ctx ℚ)
      ⟨fun _ => 1, fun _ => 0, fun _ => 0, 3, 1, 1, fun _ => 1, fun _ => 1⟩
      (.layer ⟨fun _ => ⟨2, 0⟩, 3, none⟩) 1 ⟨0, 0, 1⟩ = true ∧
    (transfer (⟨1, .s, ⟨0, 0, -1⟩⟩ : Ctx ℚ)
      ⟨fun _ => 1, fun _ => 0, fun _ => 0, 3, 1, 1, fun _ => 1, fun _ => 1⟩
      (.layer ⟨fun _ => ⟨2, 0⟩, 3, none⟩) 1 ⟨0, 0, 1⟩).matrix.det ≠ 0 := by
  have hwp : wellPosed (⟨1, .s, ⟨0, 0, -1⟩⟩ : Ctx ℚ)
      ⟨fun _ => 1, fun _ => 0, fun _ => 0, 3, 1, 1, fun _ => 1, fun _ => 1⟩
      (.layer ⟨fun _ => ⟨2, 0⟩, 3, none⟩) 1 ⟨0, 0, 1⟩ = true := by
    simp [wellPosed, snells_law, fresnelQ, attenuationOf, V3.dot, V3.sub, V3.smul, V3.add,
      Cx.ofReal, Cx.iu, Cx.zero_def, Cx.one_def, Cx.mk_add_mk, Cx.mk_mul_mk]
    norm_num
  exact ⟨hwp, transfer_matrix_det_nonzero _ _ _ 1 ⟨0, 0, 1⟩ hwp⟩

/-- C5: `LayerSequence.transfer` folds its children left to right: an empty
sequence returns the identity matrix and the incident `(n, direction)`
unchanged, and a nonempty sequence threads the first child's returned
`(n, direction)` into the rest and multiplies the first child's matrix on
the left of the rest's matrix. -/
theorem layerSequence_transfer_fold (ctx : Ctx R) (F : RealFns R) (n : Cx R) (d : V3 R) :
    transfer ctx F (.layerSequence ([] : List (AbstractLayer R))) n d = ⟨n, d, 1⟩ ∧
    ∀ (l : AbstractLayer R) (ls : List (AbstractLayer R)),
      transfer ctx F (.layerSequence (l :: ls)) n d =
        ⟨(transfer ctx F (.layerSequence ls) (transfer ctx F l n d).n
            (transfer ctx F l n d).direction).n,
          (transfer ctx F (.layerSequence ls) (transfer ctx F l n d).n
            (transfer ctx F l n d).direction).direction,
          (transfer ctx F l n d).matrix *
            (transfer ctx F (.layerSequence ls) (transfer ctx F l n d).n
              (transfer ctx F l n d).direction).matrix⟩ := by
  constructor
  · rw [transfer_layerSequence]
    simp [transferFold]
  · intro l ls
    rw [transfer_layerSequence]
    simp only [transferFold]
    rw [transferFold_one]
    rw [transfer_layerSequence]
    exact TR.ext rfl rfl (by rw [one_mul])

/-- Witness for C5: the fold laws instantiated over `ℚ` at the test
geometry. -/
theorem layerSequence_transfer_fold_witness :
    transfer (⟨1, .s, ⟨0, 0, -1⟩⟩ : Ctx ℚ)
        ⟨fun _ => 1, fun _ => 0, fun _ => 0, 3, 1, 1, fun _ => 1, fun _ => 1⟩
        (.layerSequence []) 1 ⟨0, 0, 1⟩ = ⟨1, ⟨0, 0, 1⟩, 1⟩ ∧
    ∀ (l : AbstractLayer ℚ) (ls : List (AbstractLayer ℚ)),
      transfer (⟨1, .s, ⟨0, 0, -1⟩⟩ : Ctx ℚ)
          ⟨fun _ => 1, fun _ => 0, fun _ => 0, 3, 1, 1, fun _ => 1, fun _ => 1⟩
          (.layerSequence (l :: ls)) 1 ⟨0, 0, 1⟩ =
        ⟨(transfer (⟨1, .s, ⟨0, 0, -1⟩⟩ : Ctx ℚ)
            ⟨fun _ => 1, fun _ => 0, fun _ => 0, 3, 1, 1, fun _ => 1, fun _ => 1⟩
            (.layerSequence ls)
            (transfer (⟨1, .s, ⟨0, 0, -1⟩⟩ : Ctx ℚ)
              ⟨fun _ => 1, fun _ => 0, fun _ => 0, 3, 1, 1, fun _ => 1, fun _ => 1⟩
              l 1 ⟨0, 0, 1⟩).n
            (transfer (⟨1, .s, ⟨0, 0, -1⟩⟩ : Ctx ℚ)
              ⟨fun _ => 1, fun _ => 0, fun _ => 0, 3, 1, 1, fun _ => 1, fun _ => 1⟩
              l 1 ⟨0, 0, 1⟩).direction).n,
          (transfer (⟨1, .s, ⟨0, 0, -1⟩⟩ : Ctx ℚ)
            ⟨fun _ => 1, fun _ => 0, fun _ => 0, 3, 1, 1, fun _ => 1, fun _ => 1⟩
            (.layerSequence ls)
            (transfer (⟨1, .s, ⟨0, 0, -1⟩⟩ : Ctx ℚ)
              ⟨fun _ => 1, fun _ => 0, fun _ => 0, 3, 1, 1, fun _ => 1, fun _ => 1⟩
              l 1 ⟨0, 0, 1⟩).n
            (transfer (⟨1, .s, ⟨0, 0, -1⟩⟩ : Ctx ℚ)
              ⟨fun _ => 1, fun _ => 0, fun _ => 0, 3, 1, 1, fun _ => 1, fun _ => 1⟩
              l 1 ⟨0, 0, 1⟩).direction).direction,
          (transfer (⟨1, .s, ⟨0, 0, -1⟩⟩ : Ctx ℚ)
            ⟨fun _ => 1, fun _ => 0, fun _ => 0, 3, 1, 1, fun _ => 1, fun _ => 1⟩
            l 1 ⟨0, 0, 1⟩).matrix *
            (transfer (⟨1, .s, ⟨0, 0, -1⟩⟩ : Ctx ℚ)
              ⟨fun _ => 1, fun _ => 0, fun _ => 0, 3, 1, 1, fun _ => 1, fun _ => 1⟩
              (.layerSequence ls)
              (transfer (⟨1, .s, ⟨0, 0, -1⟩⟩ : Ctx ℚ)
                ⟨fun _ => 1, fun _ => 0, fun _ => 0, 3, 1, 1, fun _ => 1, fun _ => 1⟩
                l 1 ⟨0, 0, 1⟩).n
              (transfer (⟨1, .s, ⟨0, 0, -1⟩⟩ : Ctx ℚ)
                ⟨fun _ => 1, fun _ => 0, fun _ => 0, 3, 1, 1, fun _ => 1, fun _ => 1⟩
                l 1 ⟨0, 0, 1⟩).direction).matrix⟩ :=
  layerSequence_transfer_fold (⟨1, .s, ⟨0, 0, -1⟩⟩ : Ctx ℚ)
    ⟨fun _ => 1, fun _ => 0, fun _ => 0, 3, 1, 1, fun _ => 1, fun _ => 1⟩ 1 ⟨0, 0, 1⟩

/-- C6: for every single `Layer` and every input, `transfer` returns the
layer's own complex index `n_layer(wavelength)`, the Snell-refracted
internal direction (computed from the real parts), and the matrix product
`refraction @ propagation` with the refraction (boundary) matrix on the left
(applied before the propagation/phase matrix). -/
theorem layer_transfer_components (ctx : Ctx R) (F : RealFns R) (l : Layer R)
    (n : Cx R) (d : V3 R) :
    transfer ctx F (.layer l) n d =
      ⟨l.n ctx.wavelength,
        snells_law F (ctx.wavelength / n.re) d n.re (l.n ctx.wavelength).re ctx.normal,
        refraction F ctx.wavelength d
            (snells_law F (ctx.wavelength / n.re) d n.re (l.n ctx.wavelength).re ctx.normal)
            ctx.polarization n (l.n ctx.wavelength) ctx.normal l.interface *
          propagation F ctx.wavelength
            (snells_law F (ctx.wavelength / n.re) d n.re (l.n ctx.wavelength).re ctx.normal)
            l.thickness (l.n ctx.wavelength) ctx.normal⟩ :=
  transfer_layer ctx F l n d

/-- Witness for C6: the leaf transfer decomposition at a concrete `ℚ`
layer. -/
theorem layer_transfer_components_witness :
    transfer (⟨1, .s, ⟨0, 0, -1⟩⟩ : Ctx ℚ)
        ⟨fun _ => 1, fun _ => 0, fun _ => 0, 3, 1, 1, fun _ => 1, fun _ => 1⟩
        (.layer ⟨fun _ => ⟨2, 0⟩, 3, none⟩) 1 ⟨0, 0, 1⟩ =
      ⟨⟨2, 0⟩,
        snells_law ⟨fun _ => 1, fun _ => 0, fun _ => 0, 3, 1, 1, fun _ => 1, fun _ => 1⟩
          (1 / (1 : Cx ℚ).re) ⟨0, 0, 1⟩ (1 : Cx ℚ).re ((⟨2, 0⟩ : Cx ℚ)).re ⟨0, 0, -1⟩,
        refraction ⟨fun _ => 1, fun _ => 0, fun _ => 0, 3, 1, 1, fun _ => 1, fun _ => 1⟩
            1 ⟨0, 0, 1⟩
            (snells_law ⟨fun _ => 1, fun _ => 0, fun _ => 0, 3, 1, 1, fun _ => 1, fun _ => 1⟩
              (1 / (1 : Cx ℚ).re) ⟨0, 0, 1⟩ (1 : Cx ℚ).re ((⟨2, 0⟩ : Cx ℚ)).re ⟨0, 0, -1⟩)
            .s 1 ⟨2, 0⟩ ⟨0, 0, -1⟩ none *
          propagation ⟨fun _ => 1, fun _ => 0, fun _ => 0, 3, 1, 1, fun _ => 1, fun _ => 1⟩
            1
            (snells_law ⟨fun _ => 1, fun _ => 0, fun _ => 0, 3, 1, 1, fun _ => 1, fun _ => 1⟩
              (1 / (1 : Cx ℚ).re) ⟨0, 0, 1⟩ (1 : Cx ℚ).re ((⟨2, 0⟩ : Cx ℚ)).re ⟨0, 0, -1⟩)
            3 ⟨2, 0⟩ ⟨0, 0, -1⟩⟩ :=
  layer_transfer_components _ _ _ 1 ⟨0, 0, 1⟩

/-- C9: thickness is additive: a two-element `LayerSequence` has the sum of
the two thicknesses (and in general a sequence sums its children), and a
`PeriodicLayerSequence` has `num_periods` times its period's thickness. -/
theorem thickness_additive :
    (∀ A B : AbstractLayer R,
      thickness (.layerSequence [A, B]) = thickness A + thickness B) ∧
    (∀ ls : List (AbstractLayer R),
      thickness (.layerSequence ls) = (ls.map thickness).sum) ∧
    (∀ (ls : List (AbstractLayer R)) (k : Nat),
      thickness (.periodicLayerSequence ls k) = (k : R) * thickness (.layerSequence ls)) := by
  have hseq : ∀ ls : List (AbstractLayer R),
      thickness (.layerSequence ls) = (ls.map thickness).sum := by
    intro ls
    have h : thickness (.layerSequence ls) = thicknessFold ls 0 := by
      simp [thickness]
    rw [h, thicknessFold_eq ls 0, zero_add]
  refine ⟨?_, hseq, ?_⟩
  · intro A B
    rw [hseq [A, B]]
    simp
  · intro ls k
    have h1 : thickness (.periodicLayerSequence ls k) = (k : R) * thicknessFold ls 0 := by
      simp [thickness]
    have h2 : thickness (.layerSequence ls) = thicknessFold ls 0 := by
      simp [thickness]
    rw [h1, h2]

/-- Witness for C9: thickness additivity at two concrete `ℚ` layers and a
three-period repetition. -/
theorem thickness_additive_witness :
    thickness (.layerSequence [.layer ⟨fun _ => ⟨2, 0⟩, 3, none⟩,
        .layer ⟨fun _ => ⟨3, 1⟩, 4, none⟩]) =
      thickness (.layer (⟨fun _ => ⟨2, 0⟩, 3, none⟩ : Layer ℚ)) +
        thickness (.layer (⟨fun _ => ⟨3, 1⟩, 4, none⟩ : Layer ℚ)) ∧
    thickness (.periodicLayerSequence [.layer (⟨fun _ => ⟨2, 0⟩, 3, none⟩ : Layer ℚ)] 3) =
      (3 : ℚ) * thickness (.layerSequence [.layer (⟨fun _ => ⟨2, 0⟩, 3, none⟩ : Layer ℚ)]) :=
  ⟨(thickness_additive (R := ℚ)).1 _ _,
    by
      have h := (thickness_additive (R := ℚ)).2.2
        [.layer (⟨fun _ => ⟨2, 0⟩, 3, none⟩ : Layer ℚ)] 3
      simpa using h⟩

/-- C10: the internal propagation direction of `Layer.transfer` is computed
from the real parts of the refractive indices only: two incident indices
with equal real parts and two layer media whose indices at the working
wavelength have equal real parts produce the identical internal direction;
the imaginary (absorptive) parts never influence the refracted direction. -/
theorem layer_direction_ignores_imaginary_parts (ctx : Ctx R) (F : RealFns R)
    (l1 l2 : Layer R) (n1 n2 : Cx R) (d : V3 R)
    (hre : n1.re = n2.re)
    (hlre : (l1.n ctx.wavelength).re = (l2.n ctx.wavelength).re) :
    (transfer ctx F (.layer l1) n1 d).direction =
      (transfer ctx F (.layer l2) n2 d).direction := by
  rw [transfer_layer, transfer_layer]
  rw [hre, hlre]

/-- Witness for C10: media `2` and `2 + 7i` and incident indices `1` and
`1 + 5i` (equal real parts, different imaginary parts) produce the same
internal direction. -/
theorem layer_direction_ignores_imaginary_parts_witness :
    ((1 : Cx ℚ)).re = ((⟨1, 5⟩ : Cx ℚ)).re ∧
    ((⟨2, 0⟩ : Cx ℚ)).re = ((⟨2, 7⟩ : Cx ℚ)).re ∧
    (transfer (⟨1, .s, ⟨0, 0, -1⟩⟩ : Ctx ℚ)
        ⟨fun _ => 1, fun _ => 0, fun _ => 0, 3, 1, 1, fun _ => 1, fun _ => 1⟩
        (.layer ⟨fun _ => ⟨2, 0⟩, 3, none⟩) 1 ⟨0, 0, 1⟩).direction =
      (transfer (⟨1, .s, ⟨0, 0, -1⟩⟩ : Ctx ℚ)
        ⟨fun _ => 1, fun _ => 0, fun _ => 0, 3, 1, 1, fun _ => 1, fun _ => 1⟩
        (.layer ⟨fun _ => ⟨2, 7⟩, 4, none⟩) ⟨1, 5⟩ ⟨0, 0, 1⟩).direction :=
  ⟨rfl, rfl,
    layer_direction_ignores_imaginary_parts _ _ _ _ 1 ⟨1, 5⟩ ⟨0, 0, 1⟩ rfl rfl⟩

/-- C3 (evaluation at the claimed configuration): at `width = 0`, for any
nonzero wavelength and any direction, the erf, exponential and sinusoidal
profiles' `reflectivity` is exactly `some 1`, but the linear profile's
`reflectivity` evaluates `sin(0) / 0` — a division by zero producing `nan`
in numpy, modelled as `none` — so the claim "equals exactly 1 for all four
shapes" fails on the linear shape.  The hypotheses are the analytic facts
`exp(0) = 1`, `pi != 0`, `sin(pi/2) = 1`, `sin(-pi/2) = -1` about the
external math library. -/
theorem reflectivity_width_zero (F : RealFns R) (wavelength : R) (direction : V3 R)
    (hw : wavelength ≠ 0)
    (hexp0 : F.rexp 0 = 1)
    (hpi : F.rpi ≠ 0)
    (hs1 : F.rsin (F.rpi / 2) = 1)
    (hs2 : F.rsin (-(F.rpi / 2)) = -1) :
    (ErfInterfaceProfile.mk (0 : R)).reflectivity F wavelength direction = some 1 ∧
    (ExponentialInterfaceProfile.mk (0 : R)).reflectivity F wavelength direction = some 1 ∧
    (SinusoidalInterfaceProfile.mk (0 : R)).reflectivity F wavelength direction = some 1 ∧
    (LinearInterfaceProfile.mk (0 : R)).reflectivity F wavelength direction = none := by
  have hpi2 : F.rpi / 2 ≠ 0 := div_ne_zero hpi two_ne_zero
  refine ⟨?_, ?_, ?_, ?_⟩
  · simp [ErfInterfaceProfile.reflectivity, cdiv, hw, hexp0]
  · simp [ExponentialInterfaceProfile.reflectivity, cdiv, hw]
  · simp only [SinusoidalInterfaceProfile.reflectivity, cdiv, hw, if_neg, mul_zero,
      zero_mul, zero_sub, zero_add, neg_eq_zero, hpi2, if_false, hs1, hs2,
      Option.bind_some, Option.bind_eq_bind, Option.map_some, Option.some.injEq]
    rw [div_neg]
    field_simp
    ring
  · simp [LinearInterfaceProfile.reflectivity, cdiv, hw]

/-- Witness for C3: the width-zero reflectivity evaluation over `ℚ` with a
math-function model satisfying the analytic hypotheses
(`rpi := 2`, `rsin := id`, `rexp := const 1`). -/
theorem reflectivity_width_zero_witness :
    ((1 : ℚ) ≠ 0) ∧
    (⟨fun _ => 1, fun x => x, fun _ => 0, 2, 1, 1, fun _ => 1, fun _ => 1⟩ :
      RealFns ℚ).rexp 0 = 1 ∧
    (⟨fun _ => 1, fun x => x, fun _ => 0, 2, 1, 1, fun _ => 1, fun _ => 1⟩ :
      RealFns ℚ).rpi ≠ 0 ∧
    (ErfInterfaceProfile.mk (0 : ℚ)).reflectivity
      ⟨fun _ => 1, fun x => x, fun _ => 0, 2, 1, 1, fun _ => 1, fun _ => 1⟩
      1 ⟨0, 0, 1⟩ = some 1 ∧
    (ExponentialInterfaceProfile.mk (0 : ℚ)).reflectivity
      ⟨fun _ => 1, fun x => x, fun _ => 0, 2, 1, 1, fun _ => 1, fun _ => 1⟩
      1 ⟨0, 0, 1⟩ = some 1 ∧
    (SinusoidalInterfaceProfile.mk (0 : ℚ)).reflectivity
      ⟨fun _ => 1, fun x => x, fun _ => 0, 2, 1, 1, fun _ => 1, fun _ => 1⟩
      1 ⟨0, 0, 1⟩ = some 1 ∧
    (LinearInterfaceProfile.mk (0 : ℚ)).reflectivity
      ⟨fun _ => 1, fun x => x, fun _ => 0, 2, 1, 1, fun _ => 1, fun _ => 1⟩
      1 ⟨0, 0, 1⟩ = none := by
  have h := reflectivity_width_zero
    (⟨fun _ => 1, fun x => x, fun _ => 0, 2, 1, 1, fun _ => 1, fun _ => 1⟩ : RealFns ℚ)
    1 ⟨0, 0, 1⟩ (by norm_num) rfl (by norm_num) (by norm_num) (by norm_num)
  exact ⟨by norm_num, rfl, by norm_num, h.1, h.2.1, h.2.2.1, h.2.2.2⟩

/-- C7: for every profile shape with width > 0 and every signed depth `z`,
the mixing fraction is well defined and lies in the closed interval [0, 1];
the linear shape clamps its result, the sinusoidal shape clamps its input
and relies on the boundedness of `sin`, the erf and exponential shapes are
analytically bounded.  The hypotheses are the boundedness/positivity facts
about the external math functions. -/
theorem mix_mem_unit_interval (F : RealFns R) (w z : R) (hw : 0 < w)
    (hs2 : 0 < F.sqrt2) (hs3 : 0 < F.sqrt3)
    (herf : ∀ x, -1 ≤ F.rerf x ∧ F.rerf x ≤ 1)
    (hsin : ∀ x, -1 ≤ F.rsin x ∧ F.rsin x ≤ 1)
    (hexp : ∀ x, x ≤ 0 → 0 ≤ F.rexp x ∧ F.rexp x ≤ 1)
    (hpi : 0 < F.rpi) (hpi8 : 8 < F.rpi ^ 2) :
    (∃ q, (ErfInterfaceProfile.mk w).call F z = some q ∧ 0 ≤ q ∧ q ≤ 1) ∧
    (∃ q, (ExponentialInterfaceProfile.mk w).call F z = some q ∧ 0 ≤ q ∧ q ≤ 1) ∧
    (∃ q, (LinearInterfaceProfile.mk w).call F z = some q ∧ 0 ≤ q ∧ q ≤ 1) ∧
    (∃ q, (SinusoidalInterfaceProfile.mk w).call F z = some q ∧ 0 ≤ q ∧ q ≤ 1) := by
  refine ⟨?_, ?_, ?_, ?_⟩
  · refine ⟨(1 + F.rerf (z / (F.sqrt2 * w))) / 2, ?_, ?_, ?_⟩
    · simp [ErfInterfaceProfile.call, cdiv, (mul_pos hs2 hw).ne']
    · have h := (herf (z / (F.sqrt2 * w))).1
      linarith
    · have h := (herf (z / (F.sqrt2 * w))).2
      linarith
  · refine ⟨(1 + sgn z - sgn z * F.rexp (-(sgn z * F.sqrt2 * z / w))) / 2, ?_, ?_⟩
    · simp [ExponentialInterfaceProfile.call, cdiv, hw.ne']
    · have harg : -(sgn z * F.sqrt2 * z / w) ≤ 0 := by
        have hzz : 0 ≤ sgn z * z := by
          rcases lt_trichotomy z 0 with hz | hz | hz
          · simp only [sgn, if_pos hz]
            nlinarith
          · simp [sgn, hz]
          · simp only [sgn, if_neg (not_lt.mpr hz.le), if_neg hz.ne']
            nlinarith
        have : 0 ≤ sgn z * F.sqrt2 * z / w := by
          apply div_nonneg _ hw.le
          have : sgn z * F.sqrt2 * z = F.sqrt2 * (sgn z * z) := by ring
          rw [this]
          exact mul_nonneg hs2.le hzz
        linarith
      have he := hexp _ harg
      rcases lt_trichotomy z 0 with hz | hz | hz
      · simp only [sgn, if_pos hz] at he ⊢
        constructor <;> nlinarith [he.1, he.2]
      · subst hz
        norm_num [sgn]
      · simp only [sgn, if_neg (not_lt.mpr hz.le), if_neg hz.ne'] at he ⊢
        constructor <;> nlinarith [he.1, he.2]
  · refine ⟨min 1 (max (1 / 2 + z / (2 * F.sqrt3 * w)) 0), ?_, ?_, ?_⟩
    · have hden : 2 * F.sqrt3 * w ≠ 0 := by positivity
      simp [LinearInterfaceProfile.call, cdiv, hden]
    · exact le_min (by norm_num) (le_max_right _ 0)
    · exact min_le_left _ _
  · have ha : 0 < F.rpi / (F.rpi ^ 2 - 8) := div_pos hpi (by linarith)
    have hden : 2 * (F.rpi / (F.rpi ^ 2 - 8)) * w ≠ 0 := by positivity
    refine ⟨1 / 2 + F.rsin (F.rpi *
      (min (F.rpi / (F.rpi ^ 2 - 8) * w)
        (max z (-(F.rpi / (F.rpi ^ 2 - 8) * w)))) /
      (2 * (F.rpi / (F.rpi ^ 2 - 8)) * w)) / 2, ?_, ?_, ?_⟩
    · simp only [SinusoidalInterfaceProfile.call, cdiv, if_neg hden]
      rfl
    · have h := (hsin (F.rpi *
        (min (F.rpi / (F.rpi ^ 2 - 8) * w)
          (max z (-(F.rpi / (F.rpi ^ 2 - 8) * w)))) /
        (2 * (F.rpi / (F.rpi ^ 2 - 8)) * w))).1
      linarith
    · have h := (hsin (F.rpi *
        (min (F.rpi / (F.rpi ^ 2 - 8) * w)
          (max z (-(F.rpi / (F.rpi ^ 2 - 8) * w)))) /
        (2 * (F.rpi / (F.rpi ^ 2 - 8)) * w))).2
      linarith

/-- Witness for C7: the four mixing-fraction bounds over `ℚ` at width `1`
and depth `5`, with a math-function model satisfying the analytic
hypotheses. -/
theorem mix_mem_unit_interval_witness :
    (0 : ℚ) < 1 ∧
    (∃ q, (ErfInterfaceProfile.mk (1 : ℚ)).call
      ⟨fun _ => 1, fun _ => 0, fun _ => 0, 3, 1, 1, fun _ => 1, fun _ => 1⟩ 5 =
        some q ∧ 0 ≤ q ∧ q ≤ 1) ∧
    (∃ q, (ExponentialInterfaceProfile.mk (1 : ℚ)).call
      ⟨fun _ => 1, fun _ => 0, fun _ => 0, 3, 1, 1, fun _ => 1, fun _ => 1⟩ 5 =
        some q ∧ 0 ≤ q ∧ q ≤ 1) ∧
    (∃ q, (LinearInterfaceProfile.mk (1 : ℚ)).call
      ⟨fun _ => 1, fun _ => 0, fun _ => 0, 3, 1, 1, fun _ => 1, fun _ => 1⟩ 5 =
        some q ∧ 0 ≤ q ∧ q ≤ 1) ∧
    (∃ q, (SinusoidalInterfaceProfile.mk (1 : ℚ)).call
      ⟨fun _ => 1, fun _ => 0, fun _ => 0, 3, 1, 1, fun _ => 1, fun _ => 1⟩ 5 =
        some q ∧ 0 ≤ q ∧ q ≤ 1) := by
  have h := mix_mem_unit_interval
    (⟨fun _ => 1, fun _ => 0, fun _ => 0, 3, 1, 1, fun _ => 1, fun _ => 1⟩ : RealFns ℚ)
    1 5 (by norm_num) (by norm_num) (by norm_num)
    (fun x => by constructor <;> norm_num)
    (fun x => by constructor <;> norm_num)
    (fun x hx => by constructor <;> norm_num)
    (by norm_num) (by norm_num)
  exact ⟨by norm_num, h.1, h.2.1, h.2.2.1, h.2.2.2⟩

/-- C8 (evaluation at the failing configuration): at `width = 0` the linear
and sinusoidal closed forms where the width appears in a denominator are
not guarded: the linear and sinusoidal mixing fractions divide by zero for
every depth `z`, and the linear reflectivity divides by zero for every
nonzero wavelength — all producing `nan` in numpy, modelled as `none` — so
the claim "never divides by zero, including when width = 0" fails. -/
theorem width_zero_division_by_zero (F : RealFns R) (z wavelength : R)
    (direction : V3 R) (hw : wavelength ≠ 0) :
    (LinearInterfaceProfile.mk (0 : R)).call F z = none ∧
    (SinusoidalInterfaceProfile.mk (0 : R)).call F z = none ∧
    (LinearInterfaceProfile.mk (0 : R)).reflectivity F wavelength direction = none := by
  refine ⟨?_, ?_, ?_⟩
  · simp [LinearInterfaceProfile.call, cdiv]
  · simp [SinusoidalInterfaceProfile.call, cdiv]
  · simp [LinearInterfaceProfile.reflectivity, cdiv, hw]

/-- Witness for C8: the width-zero divisions by zero over `ℚ` at depth 5 and
wavelength 1. -/
theorem width_zero_division_by_zero_witness :
    ((1 : ℚ) ≠ 0) ∧
    (LinearInterfaceProfile.mk (0 : ℚ)).call
      ⟨fun _ => 1, fun _ => 0, fun _ => 0, 3, 1, 1, fun _ => 1, fun _ => 1⟩ 5 = none ∧
    (SinusoidalInterfaceProfile.mk (0 : ℚ)).call
      ⟨fun _ => 1, fun _ => 0, fun _ => 0, 3, 1, 1, fun _ => 1, fun _ => 1⟩ 5 = none ∧
    (LinearInterfaceProfile.mk (0 : ℚ)).reflectivity
      ⟨fun _ => 1, fun _ => 0, fun _ => 0, 3, 1, 1, fun _ => 1, fun _ => 1⟩
      1 ⟨0, 0, 1⟩ = none := by
  have h := width_zero_division_by_zero
    (⟨fun _ => 1, fun _ => 0, fun _ => 0, 3, 1, 1, fun _ => 1, fun _ => 1⟩ : RealFns ℚ)
    5 1 ⟨0, 0, 1⟩ (by norm_num)
  exact ⟨by norm_num, h.1, h.2.1, h.2.2⟩

/-- C4 counterexample (the claim, as stated, is false at these concrete
inputs): constructing a `Layer` with thickness `-1`, a
`PeriodicLayerSequence` with `num_periods = 0`, and a linear interface
profile with width `-1` all succeed — the dataclasses have no
`__post_init__` and perform no validation — storing the invalid values
unchanged instead of reporting a validation failure. -/
theorem construction_unvalidated_counterexample :
    (Layer.make (fun _ => (1 : Cx ℚ)) (-1) none).thickness = -1 ∧
    numPeriods (PeriodicLayerSequence.make ([] : List (AbstractLayer ℚ)) 0) = 0 ∧
    (LinearInterfaceProfile.mk (-1 : ℚ)).width = -1 :=
  ⟨rfl, rfl, rfl⟩

omit [LinearOrderedField R] in
/-- C4 amended: construction performs no validation at all — the
constructors are total and store their arguments unchanged, for every
thickness (including negative), every `num_periods` (including `0`) and
every profile width (including negative); invalid values are not rejected at
construction time. -/
theorem construction_unvalidated (nfun : R → Cx R) (t : R)
    (interface : Option (InterfaceProfile R)) (ls : List (AbstractLayer R))
    (k : Nat) (w : R) :
    (Layer.make nfun t interface).thickness = t ∧
    numPeriods (PeriodicLayerSequence.make ls k) = k ∧
    (LinearInterfaceProfile.mk w).width = w ∧
    (ErfInterfaceProfile.mk w).width = w ∧
    (ExponentialInterfaceProfile.mk w).width = w ∧
    (SinusoidalInterfaceProfile.mk w).width = w :=
  ⟨rfl, rfl, rfl, rfl, rfl, rfl⟩

/-- Witness for C4 (amended): the stored-unchanged laws at the concrete
invalid inputs. -/
theorem construction_unvalidated_witness :
    (Layer.make (fun _ => (1 : Cx ℚ)) (-2) none).thickness = -2 ∧
    numPeriods (PeriodicLayerSequence.make ([] : List (AbstractLayer ℚ)) 0) = 0 ∧
    (LinearInterfaceProfile.mk (-2 : ℚ)).width = -2 ∧
    (ErfInterfaceProfile.mk (-2 : ℚ)).width = -2 ∧
    (ExponentialInterfaceProfile.mk (-2 : ℚ)).width = -2 ∧
    (SinusoidalInterfaceProfile.mk (-2 : ℚ)).width = -2 :=
  construction_unvalidated (fun _ => (1 : Cx ℚ)) (-2) none [] 0 (-2)

end Claims

end Optika

